import Mathlib

/-!
Verification development for the request-admission and routing engine in
src/load_balancer.py.  The three strategy classes (RoundRobinBalancer,
LeastConnectionsBalancer, LoadAwareBalancer) and the LoadBalancer facade are
shallowly embedded: each Python method becomes a pure state-passing function.

Modelling conventions, fixed once for the whole file:
* Python numbers (capacities, sizes, loads, times, durations) are integers
  (the workload driver draws integer sizes and capacities; timestamps are
  abstract instants, and only their order and differences matter to the code);
  the ratio-based selection key, a true quotient, lives in the rationals.
  Request ids and counters are naturals; priorities are integers.
* Calls to time.time() within one locked operation are modelled as a single
  instant `now` passed as a parameter; random.uniform durations are passed as
  parameters (`dur`, or a stream `durs` for the sweep's placements).
* A Python dict is an association list in insertion order; dict item update
  replaces the first binding in place, and iteration, filtering and min() walk
  the list left to right (Python's min keeps the first minimal element).
* queue.PriorityQueue is a multiset of 4-tuples; get() removes a tuple that is
  minimal in the lexicographic tuple order (ties are between identical tuples).
* A statement that raises a Python exception is modelled with Except; the
  mutations performed before the raise are kept in the returned state, matching
  CPython semantics where `with lock:` releases the lock and propagates.
-/

def healthyStatus : String := "healthy"

def emptyName : String := ""

def sA : String := "A"

def sB : String := "B"

def sC : String := "C"

def sW1 : String := "web-01"

def sW2 : String := "web-02"

/-- Dict lookup `d[name]`; the default is never reached by the modelled code
because every looked-up key is a key of the dict. -/
def lookupD {α : Type} [Inhabited α] (l : List (String × α)) (n : String) : α :=
  match l.find? (fun p => p.1 == n) with
  | some p => p.2
  | none => default

/-- Dict item update `d[name] = f d[name]`: rewrites the first binding. -/
def updateServer {α : Type} (l : List (String × α)) (n : String) (f : α → α) :
    List (String × α) :=
  match l with
  | [] => []
  | p :: rest => if p.1 == n then (p.1, f p.2) :: rest else p :: updateServer rest n f

/-- Python's `min(xs, key := f)` with a Boolean total order on keys: returns the
leftmost element with minimal key, or none when the list is empty. -/
def argminByB {α β : Type} (f : α → β) (le : β → β → Bool) : List α → Option α
  | [] => none
  | x :: xs =>
    match argminByB f le xs with
    | none => some x
    | some m => if le (f x) (f m) then some x else some m

/-- Order on integer keys (connection counts). -/
def intLeB (a b : ℤ) : Bool := decide (a ≤ b)

/-- Python tuple comparison on the Load-Aware selection key
(resulting relative load as a true quotient, number of active requests). -/
def pairLeB (a b : ℚ × ℕ) : Bool :=
  decide (a.1 < b.1) || (decide (a.1 = b.1) && decide (a.2 ≤ b.2))

namespace RoundRobinBalancer

/-- State of RoundRobinBalancer: server name list in construction order, the
static capacities dict, and the cyclic index.  No load is tracked: the state
has no load or connection fields at all. -/
structure State where
  servers : List String
  capacities : List (String × ℤ)
  index : ℕ
deriving DecidableEq, Repr

/-- Constructor: takes the server-to-capacity dict, index starts at 0. -/
def init (caps : List (String × ℤ)) : State :=
  { servers := caps.map (fun p => p.1), capacities := caps, index := 0 }

/-- assign_request: pick the server at the current index, advance the index
modulo the server count regardless of outcome, then reject iff the request
size exceeds the configured capacity. -/
def assign_request (request_size : ℤ) (st : State) : Option String × State :=
  let server := st.servers.getD st.index emptyName
  let st' := { st with index := (st.index + 1) % st.servers.length }
  if lookupD st.capacities server < request_size then (none, st')
  else (some server, st')

end RoundRobinBalancer

namespace LeastConnectionsBalancer

/-- Per-server record of LeastConnectionsBalancer; active_requests holds
(completion_time, size) pairs in arrival order. -/
structure Server where
  connections : ℤ
  capacity : ℤ
  current_load : ℤ
  active_requests : List (ℤ × ℤ)
deriving DecidableEq, Repr

instance : Inhabited Server := ⟨⟨0, 0, 0, []⟩⟩

structure State where
  servers : List (String × Server)
deriving DecidableEq, Repr

/-- Constructor: every server starts with 0 connections, 0 load, no actives. -/
def init (caps : List (String × ℤ)) : State :=
  ⟨caps.map (fun p => (p.1, ⟨0, p.2, 0, []⟩))⟩

/-- Sum of the sizes of a list of active requests. -/
def sizesSum (l : List (ℤ × ℤ)) : ℤ := (l.map (fun r => r.2)).sum

/-- Lazy reclaim for one server: drop every active request whose completion
time has elapsed, decrementing the connection count by one per dropped request
and the load by the freed sizes (the code loops over the completed list; the
net effect is modelled).  When nothing has completed this is the identity, as
in the code's guarded branch. -/
def sweepServer (now : ℤ) (s : Server) : Server :=
  let completed := s.active_requests.filter (fun r => decide (r.1 ≤ now))
  { s with
    connections := s.connections - completed.length,
    current_load := s.current_load - sizesSum completed,
    active_requests := s.active_requests.filter (fun r => decide (now < r.1)) }

/-- process_completed_requests: lazy reclaim over every server. -/
def process_completed_requests (now : ℤ) (st : State) : State :=
  ⟨st.servers.map (fun p => (p.1, sweepServer now p.2))⟩

/-- assign_request: reclaim, filter servers with enough free capacity, reject
if none, else pick the eligible server with the fewest connections (leftmost
on ties, Python's min over dict iteration order) and record the request. -/
def assign_request (now dur request_size : ℤ) (st : State) : Option String × State :=
  let st1 := process_completed_requests now st
  let eligible := (st1.servers.filter
    (fun p => decide (request_size ≤ p.2.capacity - p.2.current_load))).map (fun p => p.1)
  match argminByB (fun n => (lookupD st1.servers n).connections) intLeB eligible with
  | none => (none, st1)
  | some n =>
    (some n, ⟨updateServer st1.servers n (fun d =>
      { d with
        connections := d.connections + 1,
        current_load := d.current_load + request_size,
        active_requests := d.active_requests ++ [(now + dur, request_size)] })⟩)

/-- release_connection is a no-op by design. -/
def release_connection (_server : String) (_request_size : ℤ) (st : State) : State :=
  st

end LeastConnectionsBalancer

namespace LoadBalancer

/-- State effect of the LoadBalancer facade's assign_request when the wrapped
algorithm is LeastConnectionsBalancer: call assign_request, then, when a
server was returned, call the (no-op) release hook.  The facade's timing and
simulated external delay touch no router state. -/
def assign_request_lc (now dur request_size : ℤ) (st : LeastConnectionsBalancer.State) :
    Option String × LeastConnectionsBalancer.State :=
  let r := LeastConnectionsBalancer.assign_request now dur request_size st
  match r.1 with
  | some n => (r.1, LeastConnectionsBalancer.release_connection n request_size r.2)
  | none => r

end LoadBalancer

namespace LoadAwareBalancer

/-- Python runtime error raised by the modelled code. -/
inductive PyErr where
  | nameError
deriving DecidableEq, Repr

/-- Per-server record of LoadAwareBalancer; active_requests is the dict
request_id to (end_time, size) in insertion order.  status is the literal
string field; the code never writes any value other than "healthy". -/
structure Server where
  capacity : ℤ
  active_requests : List (ℕ × ℤ × ℤ)
  current_load : ℤ
  status : String
deriving DecidableEq, Repr

instance : Inhabited Server := ⟨⟨0, [], 0, healthyStatus⟩⟩

/-- One pending-queue tuple (priority, timestamp, req_id, req_size). -/
structure Entry where
  priority : ℤ
  ts : ℤ
  id : ℕ
  size : ℤ
deriving DecidableEq, Repr

/-- Full router state.  The health-check thread's timer is external; its
effect on the state is the health_check operation below. -/
structure State where
  servers : List (String × Server)
  request_queue : List Entry
  request_timeout : ℤ
  request_counter : ℕ
  completed_requests : Finset ℕ
deriving DecidableEq

/-- Constructor (request_timeout defaults to 5 in the code). -/
def init (caps : List (String × ℤ)) (request_timeout : ℤ) : State :=
  { servers := caps.map (fun p => (p.1, ⟨p.2, [], 0, healthyStatus⟩)),
    request_queue := [],
    request_timeout := request_timeout,
    request_counter := 0,
    completed_requests := ∅ }

/-- Sum of the sizes of a list of active requests. -/
def sizesSum (l : List (ℕ × ℤ × ℤ)) : ℤ := (l.map (fun r => r.2.2)).sum

/-- Python tuple comparison on pending-queue entries, i.e. the order used by
queue.PriorityQueue on (priority, timestamp, req_id, req_size). -/
def entryLeB (a b : Entry) : Bool :=
  decide (a.priority < b.priority) ||
    (decide (a.priority = b.priority) &&
      (decide (a.ts < b.ts) ||
        (decide (a.ts = b.ts) &&
          (decide (a.id < b.id) ||
            (decide (a.id = b.id) && decide (a.size ≤ b.size))))))

/-- PriorityQueue.get on the queue's multiset of entries: removes and returns
a minimal entry in the tuple order (the leftmost one; entries tied in the full
tuple order are identical, so the choice is immaterial). -/
def extractMin : List Entry → Option (Entry × List Entry)
  | [] => none
  | e :: rest =>
    match extractMin rest with
    | none => some (e, [])
    | some (m, rest') => if entryLeB e m then some (e, rest) else some (m, e :: rest')

/-- The feasible-server comprehension of _update_server_states (lines 147-151):
names of servers that are healthy and can absorb req_size.  This comprehension
reads the local req_size correctly. -/
def available_servers (servers : List (String × Server)) (req_size : ℤ) : List String :=
  (servers.filter (fun p =>
    p.2.status == healthyStatus && decide (p.2.current_load + req_size ≤ p.2.capacity))).map
    (fun p => p.1)

/-- Selection key of the ratio-minimizing placement (lines 156-159 and
193-196): (resulting relative load, number of active requests), looked up from
the servers dict by name. -/
def selKey (servers : List (String × Server)) (req_size : ℤ) (n : String) : ℚ × ℕ :=
  ((((lookupD servers n).current_load + req_size : ℤ) : ℚ) /
      (((lookupD servers n).capacity : ℤ) : ℚ),
    (lookupD servers n).active_requests.length)

/-- _assign_to_server: records the request under the key read from
self.request_counter (passed here as `counter` - for queue-drain placements
this is the id of the most recently allocated request, not the dequeued one),
with completion time now + dur, and increments the load. -/
def assign_to_server (now dur : ℤ) (counter : ℕ) (request_size : ℤ) (s : Server) : Server :=
  { s with
    active_requests :=
      (fun l => go l counter (now + dur, request_size)) s.active_requests,
    current_load := s.current_load + request_size }
where
  /-- dict item assignment: overwrite in place or append. -/
  go : List (ℕ × ℤ × ℤ) → ℕ → ℤ × ℤ → List (ℕ × ℤ × ℤ)
    | [], k, v => [(k, v)]
    | p :: rest, k, v => if p.1 == k then (k, v) :: rest else p :: go rest k v

/-- The pending-queue drain loop of _update_server_states (lines 141-164).
The loop removes exactly one entry per iteration and never re-inserts into the
source queue during the loop, so it runs exactly (initial queue length)
iterations; `fuel` is that length and the 0-with-nonempty-queue branch is
never taken on the modelled call.  `k` counts placements for indexing the
stream of random processing durations. -/
def drainQueue (now t : ℤ) (counter : ℕ) (durs : ℕ → ℤ) :
    ℕ → List Entry → List (String × Server) → List Entry → ℕ →
    List (String × Server) × List Entry
  | 0, _q, servers, temp, _k => (servers, temp)
  | fuel + 1, q, servers, temp, k =>
    match extractMin q with
    | none => (servers, temp)
    | some (e, rest) =>
      if now - e.ts > t then
        drainQueue now t counter durs fuel rest servers temp k
      else
        match argminByB (selKey servers e.size) pairLeB (available_servers servers e.size) with
        | some n =>
          drainQueue now t counter durs fuel rest
            (updateServer servers n (assign_to_server now (durs k) counter e.size)) temp k.succ
        | none =>
          drainQueue now t counter durs fuel rest servers (temp ++ [e]) k

/-- Completion pass of _update_server_states (lines 128-139): per server, the
ids of the active requests whose completion time has elapsed. -/
def completedIds (now : ℤ) (servers : List (String × Server)) : List ℕ :=
  (servers.map (fun p =>
    (p.2.active_requests.filter (fun r => decide (r.2.1 ≤ now))).map (fun r => r.1))).flatten

/-- Completion pass effect on one server: pop the elapsed requests and
decrement the load by their sizes. -/
def sweepServer (now : ℤ) (s : Server) : Server :=
  { s with
    active_requests := s.active_requests.filter (fun r => decide (now < r.2.1)),
    current_load :=
      s.current_load - sizesSum (s.active_requests.filter (fun r => decide (r.2.1 ≤ now))) }

/-- update_server_states: complete elapsed requests (adding their ids to the
audit set), then drain the whole pending queue, dropping expired entries,
placing feasible ones and re-inserting the rest unchanged. -/
def update_server_states (now : ℤ) (durs : ℕ → ℤ) (st : State) : State :=
  let servers1 := st.servers.map (fun p => (p.1, sweepServer now p.2))
  let comp1 := (completedIds now st.servers).foldl (fun acc i => insert i acc)
    st.completed_requests
  let res := drainQueue now st.request_timeout st.request_counter durs
    st.request_queue.length st.request_queue servers1 [] 0
  { st with
    servers := res.1,
    request_queue := res.2,
    completed_requests := comp1 }

/-- The feasible-server comprehension of assign_request (lines 184-188).  Its
second conjunct reads `req_size`, a name that is not defined in
assign_request's scope (the parameter is request_size), so evaluating it
raises NameError at the first server whose status check passes; servers whose
status check fails are skipped without touching the broken conjunct. -/
def available_servers_direct : List (String × Server) → Except PyErr (List String)
  | [] => Except.ok []
  | p :: rest =>
    if p.2.status == healthyStatus then Except.error PyErr.nameError
    else available_servers_direct rest

/-- Tagged result of LoadAwareBalancer.assign_request. -/
inductive Result where
  | placed (server : String) (req_id : ℕ)
  | queued (req_id : ℕ) (queue_position : ℕ)
deriving DecidableEq, Repr

/-- assign_request (lines 177-208): sweep, allocate the next request id, then
compute the feasible set - which raises NameError whenever a healthy server
exists (see available_servers_direct).  The unreachable selection branch
(lines 190-200, which correctly use request_size) and the queueing branch are
embedded as written. -/
def assign_request (now : ℤ) (durs : ℕ → ℤ) (dur request_size : ℤ) (priority : ℤ)
    (st : State) : Except PyErr Result × State :=
  let st1 := update_server_states now durs st
  let ctr := st1.request_counter + 1
  let st2 := { st1 with request_counter := ctr }
  match available_servers_direct st2.servers with
  | Except.error err => (Except.error err, st2)
  | Except.ok avail =>
    match argminByB (selKey st2.servers request_size) pairLeB avail with
    | some n =>
      (Except.ok (Result.placed n ctr),
        { st2 with servers := updateServer st2.servers n (assign_to_server now dur ctr request_size) })
    | none =>
      let q2 := st2.request_queue ++ [⟨priority, now, ctr, request_size⟩]
      (Except.ok (Result.queued ctr q2.length), { st2 with request_queue := q2 })

/-- One tick of the health-check thread (_run_health_checks): under the lock,
each server is independently removed with small probability; the coin flips
are the parameter `removed`. -/
def health_check (removed : String → Bool) (st : State) : State :=
  { st with servers := st.servers.filter (fun p => !removed p.1) }

end LoadAwareBalancer

/-- Constant processing-duration stream used by the concrete scenarios. -/
def constDur : ℕ → ℤ := fun _ => 1

namespace LeastConnectionsBalancer

/-- Public operations on a Least-Connections router state (the reclaim pass
runs inside assign_request), including the facade wrapper around it. -/
inductive Step : State → State → Prop where
  | assign (now dur request_size : ℤ) (st : State) :
      Step st (assign_request now dur request_size st).2
  | release (server : String) (request_size : ℤ) (st : State) :
      Step st (release_connection server request_size st)
  | facade (now dur request_size : ℤ) (st : State) :
      Step st (LoadBalancer.assign_request_lc now dur request_size st).2

/-- States reachable from some construction by public operations. -/
def Reachable (st : State) : Prop :=
  ∃ caps, Relation.ReflTransGen Step (init caps) st

/-- Router invariant: per server, the load is the sum of the active sizes and
the connection count is the number of active requests. -/
def Inv (st : State) : Prop :=
  ∀ p ∈ st.servers, p.2.current_load = sizesSum p.2.active_requests ∧
    p.2.connections = (p.2.active_requests.length : ℤ)

end LeastConnectionsBalancer

namespace LoadAwareBalancer

/-- Public operations on a Load-Aware router state: assign_request, the
on-demand state-update sweep, and one health-check tick. -/
inductive Step : State → State → Prop where
  | sweep (now : ℤ) (durs : ℕ → ℤ) (st : State) :
      Step st (update_server_states now durs st)
  | assign (now : ℤ) (durs : ℕ → ℤ) (dur request_size : ℤ) (priority : ℤ) (st : State) :
      Step st (assign_request now durs dur request_size priority st).2
  | health (removed : String → Bool) (st : State) :
      Step st (health_check removed st)

/-- States reachable from some construction by public operations. -/
def Reachable (st : State) : Prop :=
  ∃ caps t, Relation.ReflTransGen Step (init caps t) st

/-- Invariant of every reachable Load-Aware state.  Because the direct
placement path raises NameError before it can queue or place whenever a
healthy server exists, and every constructed server is healthy, entries reach
the pending queue only once the registry is empty (after health-check
removals), and no request is ever recorded on any server. -/
def Inv (st : State) : Prop :=
  (∀ p ∈ st.servers, p.2.active_requests = [] ∧ p.2.current_load = 0 ∧
    p.2.status = healthyStatus) ∧
  st.completed_requests = ∅ ∧
  (st.request_queue ≠ [] → st.servers = [])

end LoadAwareBalancer

/-- Concrete scenario: Least-Connections router over one 100-capacity server
after assigning one request of size 50 at time 0 with duration 1. -/
def lcDemoState : LeastConnectionsBalancer.State :=
  (LeastConnectionsBalancer.assign_request 0 1 50 (LeastConnectionsBalancer.init [(sA, 100)])).2

/-- The single server record of lcDemoState. -/
def lcDemoPair : String × LeastConnectionsBalancer.Server := (sA, ⟨1, 100, 50, [(1, 50)]⟩)

/-- Concrete scenario: Load-Aware router over one server that the health sweep
removed, after one assign call at time 0 - the request is queued. -/
def laDemoQueued : LoadAwareBalancer.State :=
  (LoadAwareBalancer.assign_request 0 constDur 1 50 1
    (LoadAwareBalancer.health_check (fun _ => true) (LoadAwareBalancer.init [(sA, 100)] 5))).2

/-- The single server record of a freshly constructed Load-Aware router. -/
def laDemoPair : String × LoadAwareBalancer.Server := (sA, ⟨100, [], 0, healthyStatus⟩)

/-- Pending-queue entries used by the queue-order scenario. -/
def entryDemoA : LoadAwareBalancer.Entry := ⟨2, 0, 1, 10⟩

/-- Second entry of the queue-order scenario: higher urgency, later arrival. -/
def entryDemoB : LoadAwareBalancer.Entry := ⟨1, 3, 2, 10⟩

/-- The entry queued in laDemoQueued. -/
def entryDemoQ : LoadAwareBalancer.Entry := ⟨1, 0, 1, 50⟩

/-- Concrete scenario: the Round-Robin router of the specification's
end-to-end example. -/
def rrDemoState : RoundRobinBalancer.State :=
  RoundRobinBalancer.init [(sA, 100), (sB, 150), (sC, 400)]

theorem argminByB_mem {α β : Type} (f : α → β) (le : β → β → Bool) :
    ∀ (l : List α) (x : α), argminByB f le l = some x → x ∈ l := by
  intro l
  induction l with
  | nil => intro x h; exact Option.noConfusion h
  | cons a rest ih =>
    intro x h
    simp only [argminByB] at h
    cases hrec : argminByB f le rest with
    | none =>
      simp only [hrec, Option.some.injEq] at h
      subst h
      exact List.mem_cons_self _ _
    | some m =>
      simp only [hrec] at h
      by_cases hle : le (f a) (f m) = true
      · rw [if_pos hle] at h
        simp only [Option.some.injEq] at h
        subst h
        exact List.mem_cons_self _ _
      · rw [if_neg hle] at h
        simp only [Option.some.injEq] at h
        subst h
        exact List.mem_cons_of_mem _ (ih m hrec)

theorem argminByB_eq_none {α β : Type} (f : α → β) (le : β → β → Bool) (l : List α) :
    argminByB f le l = none ↔ l = [] := by
  cases l with
  | nil => simp [argminByB]
  | cons a rest =>
    constructor
    · intro h
      exfalso
      simp only [argminByB] at h
      cases hrec : argminByB f le rest with
      | none => simp only [hrec] at h; exact Option.noConfusion h
      | some m =>
        simp only [hrec] at h
        by_cases hle : le (f a) (f m) = true
        · rw [if_pos hle] at h; exact Option.noConfusion h
        · rw [if_neg hle] at h; exact Option.noConfusion h
    · intro h
      exact absurd h (List.cons_ne_nil a rest)

theorem updateServer_mem {α : Type} (l : List (String × α)) (n : String) (f : α → α) :
    ∀ p ∈ updateServer l n f, p ∈ l ∨ ∃ q, q ∈ l ∧ p = (q.1, f q.2) := by
  induction l with
  | nil => intro p hp; simp [updateServer] at hp
  | cons a rest ih =>
    intro p hp
    simp only [updateServer] at hp
    split at hp
    · rcases List.mem_cons.mp hp with h | h
      · exact Or.inr ⟨a, List.mem_cons_self _ _, h⟩
      · exact Or.inl (List.mem_cons_of_mem _ h)
    · rcases List.mem_cons.mp hp with h | h
      · subst h; exact Or.inl (List.mem_cons_self _ _)
      · rcases ih p h with h2 | ⟨q, hq, he⟩
        · exact Or.inl (List.mem_cons_of_mem _ h2)
        · exact Or.inr ⟨q, List.mem_cons_of_mem _ hq, he⟩

theorem length_filter_split {α : Type} (p : α → Bool) (l : List α) :
    l.length = (l.filter p).length + (l.filter (fun x => !p x)).length := by
  induction l with
  | nil => simp
  | cons a rest ih =>
    rcases Bool.eq_false_or_eq_true (p a) with h | h <;>
      simp [List.filter_cons, h] <;> omega

theorem sum_map_filter_split {α : Type} (g : α → ℤ) (p : α → Bool) (l : List α) :
    ((l.map g).sum : ℤ) = ((l.filter p).map g).sum + ((l.filter (fun x => !p x)).map g).sum := by
  induction l with
  | nil => simp
  | cons a rest ih =>
    rcases Bool.eq_false_or_eq_true (p a) with h | h <;>
      simp [List.filter_cons, h, ih] <;> ring

theorem lc_filter_keep_eq (now : ℤ) (l : List (ℤ × ℤ)) :
    l.filter (fun r => decide (now < r.1)) = l.filter (fun r => !decide (r.1 ≤ now)) := by
  apply List.filter_congr
  intro x _
  rw [← decide_not]
  exact decide_eq_decide.mpr not_le.symm

theorem la_filter_keep_eq (now : ℤ) (l : List (ℕ × ℤ × ℤ)) :
    l.filter (fun r => decide (now < r.2.1)) = l.filter (fun r => !decide (r.2.1 ≤ now)) := by
  apply List.filter_congr
  intro x _
  rw [← decide_not]
  exact decide_eq_decide.mpr not_le.symm

theorem la_entryLeB_iff (a b : LoadAwareBalancer.Entry) :
    LoadAwareBalancer.entryLeB a b = true ↔
      (a.priority < b.priority ∨ (a.priority = b.priority ∧
        (a.ts < b.ts ∨ (a.ts = b.ts ∧
          (a.id < b.id ∨ (a.id = b.id ∧ a.size ≤ b.size)))))) := by
  simp [LoadAwareBalancer.entryLeB]

theorem la_entryLeB_refl (a : LoadAwareBalancer.Entry) :
    LoadAwareBalancer.entryLeB a a = true := by
  rw [la_entryLeB_iff]
  exact Or.inr ⟨rfl, Or.inr ⟨rfl, Or.inr ⟨rfl, le_refl _⟩⟩⟩

theorem la_entryLeB_total (a b : LoadAwareBalancer.Entry) :
    LoadAwareBalancer.entryLeB a b = true ∨ LoadAwareBalancer.entryLeB b a = true := by
  rw [la_entryLeB_iff, la_entryLeB_iff]
  rcases lt_trichotomy a.priority b.priority with h | h | h
  · exact Or.inl (Or.inl h)
  · rcases lt_trichotomy a.ts b.ts with h2 | h2 | h2
    · exact Or.inl (Or.inr ⟨h, Or.inl h2⟩)
    · rcases lt_trichotomy a.id b.id with h3 | h3 | h3
      · exact Or.inl (Or.inr ⟨h, Or.inr ⟨h2, Or.inl h3⟩⟩)
      · rcases le_total a.size b.size with h4 | h4
        · exact Or.inl (Or.inr ⟨h, Or.inr ⟨h2, Or.inr ⟨h3, h4⟩⟩⟩)
        · exact Or.inr (Or.inr ⟨h.symm, Or.inr ⟨h2.symm, Or.inr ⟨h3.symm, h4⟩⟩⟩)
      · exact Or.inr (Or.inr ⟨h.symm, Or.inr ⟨h2.symm, Or.inl h3⟩⟩)
    · exact Or.inr (Or.inr ⟨h.symm, Or.inl h2⟩)
  · exact Or.inr (Or.inl h)

theorem la_entryLeB_trans {a b c : LoadAwareBalancer.Entry}
    (h1 : LoadAwareBalancer.entryLeB a b = true)
    (h2 : LoadAwareBalancer.entryLeB b c = true) :
    LoadAwareBalancer.entryLeB a c = true := by
  rw [la_entryLeB_iff] at h1 h2 ⊢
  rcases h1 with h1 | ⟨e1, h1⟩
  · rcases h2 with h2 | ⟨e2, _⟩
    · exact Or.inl (h1.trans h2)
    · exact Or.inl (h1.trans_eq e2)
  · rcases h2 with h2 | ⟨e2, h2⟩
    · exact Or.inl (e1.trans_lt h2)
    · refine Or.inr ⟨e1.trans e2, ?_⟩
      rcases h1 with h1 | ⟨f1, h1⟩
      · rcases h2 with h2 | ⟨f2, _⟩
        · exact Or.inl (h1.trans h2)
        · exact Or.inl (h1.trans_eq f2)
      · rcases h2 with h2 | ⟨f2, h2⟩
        · exact Or.inl (f1.trans_lt h2)
        · refine Or.inr ⟨f1.trans f2, ?_⟩
          rcases h1 with h1 | ⟨g1, h1⟩
          · rcases h2 with h2 | ⟨g2, _⟩
            · exact Or.inl (h1.trans h2)
            · exact Or.inl (h1.trans_eq g2)
          · rcases h2 with h2 | ⟨g2, h2⟩
            · exact Or.inl (g1.trans_lt h2)
            · exact Or.inr ⟨g1.trans g2, h1.trans h2⟩

theorem la_extractMin_eq_none (q : List LoadAwareBalancer.Entry) :
    LoadAwareBalancer.extractMin q = none ↔ q = [] := by
  cases q with
  | nil => simp [LoadAwareBalancer.extractMin]
  | cons e rest =>
    constructor
    · intro h
      exfalso
      simp only [LoadAwareBalancer.extractMin] at h
      cases hrec : LoadAwareBalancer.extractMin rest with
      | none => simp only [hrec] at h; exact Option.noConfusion h
      | some p =>
        obtain ⟨m, rest'⟩ := p
        simp only [hrec] at h
        by_cases hle : LoadAwareBalancer.entryLeB e m = true
        · rw [if_pos hle] at h; exact Option.noConfusion h
        · rw [if_neg hle] at h; exact Option.noConfusion h
    · intro h
      exact absurd h (List.cons_ne_nil e rest)

theorem la_extractMin_mem : ∀ {q : List LoadAwareBalancer.Entry} {e : LoadAwareBalancer.Entry}
    {r : List LoadAwareBalancer.Entry},
    LoadAwareBalancer.extractMin q = some (e, r) → e ∈ q := by
  intro q
  induction q with
  | nil => intro e r h; exact Option.noConfusion h
  | cons a rest ih =>
    intro e r h
    simp only [LoadAwareBalancer.extractMin] at h
    cases hrec : LoadAwareBalancer.extractMin rest with
    | none =>
      simp only [hrec, Option.some.injEq, Prod.mk.injEq] at h
      obtain ⟨h1, _⟩ := h
      subst h1
      exact List.mem_cons_self _ _
    | some p =>
      obtain ⟨m, rest'⟩ := p
      simp only [hrec] at h
      by_cases hle : LoadAwareBalancer.entryLeB a m = true
      · rw [if_pos hle] at h
        simp only [Option.some.injEq, Prod.mk.injEq] at h
        obtain ⟨h1, _⟩ := h
        subst h1
        exact List.mem_cons_self _ _
      · rw [if_neg hle] at h
        simp only [Option.some.injEq, Prod.mk.injEq] at h
        obtain ⟨h1, _⟩ := h
        exact List.mem_cons_of_mem _ (h1 ▸ ih hrec)

theorem la_extractMin_subset : ∀ {q : List LoadAwareBalancer.Entry}
    {e : LoadAwareBalancer.Entry} {r : List LoadAwareBalancer.Entry},
    LoadAwareBalancer.extractMin q = some (e, r) → ∀ x ∈ r, x ∈ q := by
  intro q
  induction q with
  | nil => intro e r h; exact Option.noConfusion h
  | cons a rest ih =>
    intro e r h x hx
    simp only [LoadAwareBalancer.extractMin] at h
    cases hrec : LoadAwareBalancer.extractMin rest with
    | none =>
      simp only [hrec, Option.some.injEq, Prod.mk.injEq] at h
      obtain ⟨_, h2⟩ := h
      rw [← h2] at hx
      simp at hx
    | some p =>
      obtain ⟨m, rest'⟩ := p
      simp only [hrec] at h
      by_cases hle : LoadAwareBalancer.entryLeB a m = true
      · rw [if_pos hle] at h
        simp only [Option.some.injEq, Prod.mk.injEq] at h
        obtain ⟨_, h2⟩ := h
        rw [← h2] at hx
        exact List.mem_cons_of_mem _ hx
      · rw [if_neg hle] at h
        simp only [Option.some.injEq, Prod.mk.injEq] at h
        obtain ⟨_, h2⟩ := h
        rw [← h2] at hx
        rcases List.mem_cons.mp hx with h3 | h3
        · subst h3; exact List.mem_cons_self _ _
        · exact List.mem_cons_of_mem _ (ih hrec x h3)

theorem la_extractMin_min : ∀ {q : List LoadAwareBalancer.Entry}
    {e : LoadAwareBalancer.Entry} {r : List LoadAwareBalancer.Entry},
    LoadAwareBalancer.extractMin q = some (e, r) →
    ∀ x ∈ q, LoadAwareBalancer.entryLeB e x = true := by
  intro q
  induction q with
  | nil => intro e r h; exact Option.noConfusion h
  | cons a rest ih =>
    intro e r h x hx
    simp only [LoadAwareBalancer.extractMin] at h
    cases hrec : LoadAwareBalancer.extractMin rest with
    | none =>
      simp only [hrec, Option.some.injEq, Prod.mk.injEq] at h
      obtain ⟨h1, _⟩ := h
      subst h1
      have hnil : rest = [] := (la_extractMin_eq_none rest).mp hrec
      subst hnil
      rcases List.mem_cons.mp hx with h3 | h3
      · subst h3; exact la_entryLeB_refl _
      · simp at h3
    | some p =>
      obtain ⟨m, rest'⟩ := p
      simp only [hrec] at h
      by_cases hle : LoadAwareBalancer.entryLeB a m = true
      · rw [if_pos hle] at h
        simp only [Option.some.injEq, Prod.mk.injEq] at h
        obtain ⟨h1, _⟩ := h
        subst h1
        rcases List.mem_cons.mp hx with h3 | h3
        · subst h3; exact la_entryLeB_refl _
        · exact la_entryLeB_trans hle (ih hrec x h3)
      · rw [if_neg hle] at h
        simp only [Option.some.injEq, Prod.mk.injEq] at h
        obtain ⟨h1, _⟩ := h
        subst h1
        have hma : LoadAwareBalancer.entryLeB m a = true := by
          rcases la_entryLeB_total a m with h4 | h4
          · exact absurd h4 hle
          · exact h4
        rcases List.mem_cons.mp hx with h3 | h3
        · subst h3; exact hma
        · exact ih hrec x h3

theorem lc_sizesSum_append (l : List (ℤ × ℤ)) (x : ℤ × ℤ) :
    LeastConnectionsBalancer.sizesSum (l ++ [x]) = LeastConnectionsBalancer.sizesSum l + x.2 := by
  simp [LeastConnectionsBalancer.sizesSum]

theorem lc_sweepServer_inv (now : ℤ) (s : LeastConnectionsBalancer.Server)
    (h1 : s.current_load = LeastConnectionsBalancer.sizesSum s.active_requests)
    (h2 : s.connections = (s.active_requests.length : ℤ)) :
    (LeastConnectionsBalancer.sweepServer now s).current_load =
      LeastConnectionsBalancer.sizesSum
        (LeastConnectionsBalancer.sweepServer now s).active_requests ∧
    (LeastConnectionsBalancer.sweepServer now s).connections =
      ((LeastConnectionsBalancer.sweepServer now s).active_requests.length : ℤ) := by
  simp only [LeastConnectionsBalancer.sweepServer]
  constructor
  · rw [lc_filter_keep_eq now s.active_requests, h1]
    unfold LeastConnectionsBalancer.sizesSum
    rw [sum_map_filter_split (fun r => r.2) (fun r => decide (r.1 ≤ now)) s.active_requests]
    ring
  · rw [lc_filter_keep_eq now s.active_requests, h2]
    have hsplit := length_filter_split (fun r : ℤ × ℤ => decide (r.1 ≤ now)) s.active_requests
    omega

theorem lc_process_inv (now : ℤ) (st : LeastConnectionsBalancer.State)
    (h : LeastConnectionsBalancer.Inv st) :
    LeastConnectionsBalancer.Inv (LeastConnectionsBalancer.process_completed_requests now st) := by
  intro p hp
  simp only [LeastConnectionsBalancer.process_completed_requests] at hp
  rcases List.mem_map.mp hp with ⟨q, hq, he⟩
  obtain ⟨hq1, hq2⟩ := h q hq
  rw [← he]
  exact lc_sweepServer_inv now q.2 hq1 hq2

theorem lc_assign_inv (now dur request_size : ℤ) (st : LeastConnectionsBalancer.State)
    (h : LeastConnectionsBalancer.Inv st) :
    LeastConnectionsBalancer.Inv
      (LeastConnectionsBalancer.assign_request now dur request_size st).2 := by
  have h1 := lc_process_inv now st h
  simp only [LeastConnectionsBalancer.assign_request]
  split
  · exact h1
  · intro p hp
    rcases updateServer_mem _ _ _ p hp with hmem | ⟨q, hq, he⟩
    · exact h1 p hmem
    · obtain ⟨hq1, hq2⟩ := h1 q hq
      rw [he]
      constructor
      · show q.2.current_load + request_size = LeastConnectionsBalancer.sizesSum
          (q.2.active_requests ++ [(now + dur, request_size)])
        rw [lc_sizesSum_append, hq1]
      · show q.2.connections + 1 = ((q.2.active_requests ++ [(now + dur, request_size)]).length : ℤ)
        rw [hq2]
        push_cast [List.length_append, List.length_singleton]
        ring

theorem lc_facade_state_eq (now dur request_size : ℤ) (st : LeastConnectionsBalancer.State) :
    (LoadBalancer.assign_request_lc now dur request_size st).2 =
      (LeastConnectionsBalancer.assign_request now dur request_size st).2 := by
  cases h : (LeastConnectionsBalancer.assign_request now dur request_size st).1 with
  | none => simp [LoadBalancer.assign_request_lc, h]
  | some n =>
    simp [LoadBalancer.assign_request_lc, h, LeastConnectionsBalancer.release_connection]

theorem lc_init_inv (caps : List (String × ℤ)) :
    LeastConnectionsBalancer.Inv (LeastConnectionsBalancer.init caps) := by
  intro p hp
  simp only [LeastConnectionsBalancer.init] at hp
  rcases List.mem_map.mp hp with ⟨q, _, he⟩
  rw [← he]
  exact ⟨by simp [LeastConnectionsBalancer.sizesSum], by simp⟩

theorem lc_step_inv {s u : LeastConnectionsBalancer.State}
    (h : LeastConnectionsBalancer.Inv s) (hs : LeastConnectionsBalancer.Step s u) :
    LeastConnectionsBalancer.Inv u := by
  cases hs with
  | assign now dur request_size st => exact lc_assign_inv now dur request_size s h
  | release server request_size st => exact h
  | facade now dur request_size st =>
    rw [lc_facade_state_eq]
    exact lc_assign_inv now dur request_size s h

theorem lc_reachable_inv {st : LeastConnectionsBalancer.State}
    (h : LeastConnectionsBalancer.Reachable st) : LeastConnectionsBalancer.Inv st := by
  obtain ⟨caps, hchain⟩ := h
  induction hchain with
  | refl => exact lc_init_inv caps
  | tail _ hstep ih => exact lc_step_inv ih hstep

theorem la_update_def (now : ℤ) (durs : ℕ → ℤ) (st : LoadAwareBalancer.State) :
    LoadAwareBalancer.update_server_states now durs st =
      { st with
        servers := (LoadAwareBalancer.drainQueue now st.request_timeout st.request_counter durs
          st.request_queue.length st.request_queue
          (st.servers.map (fun p => (p.1, LoadAwareBalancer.sweepServer now p.2))) [] 0).1,
        request_queue := (LoadAwareBalancer.drainQueue now st.request_timeout st.request_counter
          durs st.request_queue.length st.request_queue
          (st.servers.map (fun p => (p.1, LoadAwareBalancer.sweepServer now p.2))) [] 0).2,
        completed_requests := (LoadAwareBalancer.completedIds now st.servers).foldl
          (fun acc i => insert i acc) st.completed_requests } := rfl

theorem la_drain_servers_nil (now t : ℤ) (c : ℕ) (durs : ℕ → ℤ) :
    ∀ (fuel : ℕ) (q temp : List LoadAwareBalancer.Entry) (k : ℕ),
      (LoadAwareBalancer.drainQueue now t c durs fuel q [] temp k).1 = [] := by
  intro fuel
  induction fuel with
  | zero => intro q temp k; rfl
  | succ n ih =>
    intro q temp k
    simp only [LoadAwareBalancer.drainQueue]
    split
    · rfl
    · split
      · exact ih _ _ _
      · split
        · exact ih _ _ _
        · exact ih _ _ _

theorem la_drain_mem (now t : ℤ) (c : ℕ) (durs : ℕ → ℤ) :
    ∀ (fuel : ℕ) (q : List LoadAwareBalancer.Entry)
      (servers : List (String × LoadAwareBalancer.Server))
      (temp : List LoadAwareBalancer.Entry) (k : ℕ) (x : LoadAwareBalancer.Entry),
      x ∈ (LoadAwareBalancer.drainQueue now t c durs fuel q servers temp k).2 →
      x ∈ temp ∨ (x ∈ q ∧ ¬(now - x.ts > t)) := by
  intro fuel
  induction fuel with
  | zero => intro q servers temp k x hx; exact Or.inl hx
  | succ n ih =>
    intro q servers temp k x hx
    simp only [LoadAwareBalancer.drainQueue] at hx
    cases hq : LoadAwareBalancer.extractMin q with
    | none =>
      simp only [hq] at hx
      exact Or.inl hx
    | some p =>
      obtain ⟨e, rest⟩ := p
      simp only [hq] at hx
      by_cases hexp : now - e.ts > t
      · rw [if_pos hexp] at hx
        rcases ih rest servers temp k x hx with h1 | ⟨h2, h3⟩
        · exact Or.inl h1
        · exact Or.inr ⟨la_extractMin_subset hq x h2, h3⟩
      · rw [if_neg hexp] at hx
        cases hsel : argminByB (LoadAwareBalancer.selKey servers e.size) pairLeB
            (LoadAwareBalancer.available_servers servers e.size) with
        | some nm =>
          simp only [hsel] at hx
          rcases ih rest _ temp _ x hx with h1 | ⟨h2, h3⟩
          · exact Or.inl h1
          · exact Or.inr ⟨la_extractMin_subset hq x h2, h3⟩
        | none =>
          simp only [hsel] at hx
          rcases ih rest servers (temp ++ [e]) k x hx with h1 | ⟨h2, h3⟩
          · rcases List.mem_append.mp h1 with h4 | h4
            · exact Or.inl h4
            · rw [List.mem_singleton] at h4
              subst h4
              exact Or.inr ⟨la_extractMin_mem hq, hexp⟩
          · exact Or.inr ⟨la_extractMin_subset hq x h2, h3⟩

theorem la_completedIds_nil (now : ℤ) (servers : List (String × LoadAwareBalancer.Server))
    (h : ∀ p ∈ servers, p.2.active_requests = []) :
    LoadAwareBalancer.completedIds now servers = [] := by
  induction servers with
  | nil => rfl
  | cons a rest ih =>
    have ha := h a (List.mem_cons_self _ _)
    have hr : ∀ p ∈ rest, p.2.active_requests = [] :=
      fun p hp => h p (List.mem_cons_of_mem _ hp)
    simp only [LoadAwareBalancer.completedIds, List.map_cons, List.flatten_cons] at ih ⊢
    rw [ha, ih hr]
    simp

theorem la_sweepServer_keeps_empty (now : ℤ) (s : LoadAwareBalancer.Server)
    (h1 : s.active_requests = []) (h2 : s.current_load = 0) :
    (LoadAwareBalancer.sweepServer now s).active_requests = [] ∧
    (LoadAwareBalancer.sweepServer now s).current_load = 0 ∧
    (LoadAwareBalancer.sweepServer now s).status = s.status := by
  refine ⟨?_, ?_, rfl⟩
  · simp [LoadAwareBalancer.sweepServer, h1]
  · simp [LoadAwareBalancer.sweepServer, h1, h2, LoadAwareBalancer.sizesSum]

theorem la_sweep_inv (now : ℤ) (durs : ℕ → ℤ) (st : LoadAwareBalancer.State)
    (h : LoadAwareBalancer.Inv st) :
    LoadAwareBalancer.Inv (LoadAwareBalancer.update_server_states now durs st) := by
  obtain ⟨hs, hc, hq⟩ := h
  have hserv1 : ∀ p ∈ st.servers.map (fun p => (p.1, LoadAwareBalancer.sweepServer now p.2)),
      p.2.active_requests = [] ∧ p.2.current_load = 0 ∧ p.2.status = healthyStatus := by
    intro p hp
    rcases List.mem_map.mp hp with ⟨q, hqm, he⟩
    obtain ⟨h1, h2, h3⟩ := hs q hqm
    rw [← he]
    obtain ⟨k1, k2, k3⟩ := la_sweepServer_keeps_empty now q.2 h1 h2
    exact ⟨k1, k2, k3.trans h3⟩
  have hcomp : (LoadAwareBalancer.completedIds now st.servers).foldl
      (fun acc i => insert i acc) st.completed_requests = ∅ := by
    rw [la_completedIds_nil now st.servers (fun p hp => (hs p hp).1)]
    exact hc
  rw [la_update_def]
  cases hqe : st.request_queue with
  | nil =>
    refine ⟨?_, hcomp, ?_⟩
    · intro p hp
      exact hserv1 p hp
    · intro hne
      exact absurd rfl hne
  | cons e0 rest0 =>
    have hsnil : st.servers = [] := hq (by rw [hqe]; exact List.cons_ne_nil _ _)
    have hmap : st.servers.map (fun p => (p.1, LoadAwareBalancer.sweepServer now p.2)) = [] := by
      rw [hsnil]; rfl
    refine ⟨?_, hcomp, ?_⟩
    · intro p hp
      rw [hmap, la_drain_servers_nil] at hp
      simp at hp
    · intro _
      rw [hmap, la_drain_servers_nil]

theorem la_avail_direct_healthy_head (a : String × LoadAwareBalancer.Server)
    (rest : List (String × LoadAwareBalancer.Server)) (hh : a.2.status = healthyStatus) :
    LoadAwareBalancer.available_servers_direct (a :: rest) =
      Except.error LoadAwareBalancer.PyErr.nameError := by
  have hb : (a.2.status == healthyStatus) = true := by
    rw [hh]; exact beq_self_eq_true _
  simp only [LoadAwareBalancer.available_servers_direct, hb, if_true]

theorem la_assign_inv (now : ℤ) (durs : ℕ → ℤ) (dur request_size : ℤ) (priority : ℤ)
    (st : LoadAwareBalancer.State) (h : LoadAwareBalancer.Inv st) :
    LoadAwareBalancer.Inv
      (LoadAwareBalancer.assign_request now durs dur request_size priority st).2 := by
  obtain ⟨hs, hc, hq⟩ := la_sweep_inv now durs st h
  simp only [LoadAwareBalancer.assign_request]
  cases hserv : (LoadAwareBalancer.update_server_states now durs st).servers with
  | cons a rest =>
    have hh : a.2.status = healthyStatus :=
      (hs a (by rw [hserv]; exact List.mem_cons_self _ _)).2.2
    rw [la_avail_direct_healthy_head a rest hh]
    refine ⟨?_, hc, ?_⟩
    · intro p hp
      exact hs p (by rw [hserv]; exact hp)
    · intro hne
      exact absurd (hserv.symm.trans (hq hne)) (List.cons_ne_nil a rest)
  | nil =>
    refine ⟨?_, hc, ?_⟩
    · intro p hp
      exact (List.not_mem_nil p hp).elim
    · intro _
      rfl

theorem la_health_inv (removed : String → Bool) (st : LoadAwareBalancer.State)
    (h : LoadAwareBalancer.Inv st) :
    LoadAwareBalancer.Inv (LoadAwareBalancer.health_check removed st) := by
  obtain ⟨hs, hc, hq⟩ := h
  refine ⟨?_, hc, ?_⟩
  · intro p hp
    exact hs p (List.mem_of_mem_filter hp)
  · intro hne
    show st.servers.filter (fun p => !removed p.1) = []
    rw [hq hne]
    rfl

theorem la_init_inv (caps : List (String × ℤ)) (t : ℤ) :
    LoadAwareBalancer.Inv (LoadAwareBalancer.init caps t) := by
  refine ⟨?_, rfl, ?_⟩
  · intro p hp
    rcases List.mem_map.mp hp with ⟨q, _, he⟩
    rw [← he]
    exact ⟨rfl, rfl, rfl⟩
  · intro hne
    exact absurd rfl hne

theorem la_step_inv {s u : LoadAwareBalancer.State} (h : LoadAwareBalancer.Inv s)
    (hs : LoadAwareBalancer.Step s u) : LoadAwareBalancer.Inv u := by
  cases hs with
  | sweep now durs st => exact la_sweep_inv now durs s h
  | assign now durs dur request_size priority st =>
    exact la_assign_inv now durs dur request_size priority s h
  | health removed st => exact la_health_inv removed s h

theorem la_reach_from_inv {s u : LoadAwareBalancer.State} (h : LoadAwareBalancer.Inv s)
    (hchain : Relation.ReflTransGen LoadAwareBalancer.Step s u) : LoadAwareBalancer.Inv u := by
  induction hchain with
  | refl => exact h
  | tail _ hstep ih => exact la_step_inv ih hstep

theorem la_reachable_inv {st : LoadAwareBalancer.State} (h : LoadAwareBalancer.Reachable st) :
    LoadAwareBalancer.Inv st := by
  obtain ⟨caps, t, hchain⟩ := h
  exact la_reach_from_inv (la_init_inv caps t) hchain

theorem la_pairwise_of_empty (l : List (String × LoadAwareBalancer.Server))
    (h : ∀ p ∈ l, p.2.active_requests = []) :
    l.Pairwise (fun p q => ∀ r ∈ p.2.active_requests, ∀ r' ∈ q.2.active_requests,
      r.1 ≠ r'.1) := by
  induction l with
  | nil => exact List.Pairwise.nil
  | cons a rest ih =>
    refine List.Pairwise.cons ?_ (ih (fun p hp => h p (List.mem_cons_of_mem _ hp)))
    intro q hq r hr
    rw [h a (List.mem_cons_self _ _)] at hr
    simp at hr

theorem lc_assign_fst (now dur request_size : ℤ) (st : LeastConnectionsBalancer.State) :
    (LeastConnectionsBalancer.assign_request now dur request_size st).1 =
      argminByB (fun n =>
        (lookupD (LeastConnectionsBalancer.process_completed_requests now st).servers
          n).connections) intLeB
        (((LeastConnectionsBalancer.process_completed_requests now st).servers.filter
          (fun p => decide (request_size ≤ p.2.capacity - p.2.current_load))).map
          (fun p => p.1)) := by
  simp only [LeastConnectionsBalancer.assign_request]
  cases hsel : argminByB (fun n =>
      (lookupD (LeastConnectionsBalancer.process_completed_requests now st).servers
        n).connections) intLeB
      (((LeastConnectionsBalancer.process_completed_requests now st).servers.filter
        (fun p => decide (request_size ≤ p.2.capacity - p.2.current_load))).map
        (fun p => p.1)) with
  | none => simp only [hsel]
  | some m => simp only [hsel]

/-- C9: release_connection of the Least-Connections router is a no-op - it
returns the state unchanged for every state, server id and size - so the
Dispatch Facade's post-assignment release call has no observable effect on the
router's state. -/
theorem claim_C9_release_noop :
    (∀ (server : String) (request_size : ℤ) (st : LeastConnectionsBalancer.State),
      LeastConnectionsBalancer.release_connection server request_size st = st) ∧
    (∀ (now dur request_size : ℤ) (st : LeastConnectionsBalancer.State),
      (LoadBalancer.assign_request_lc now dur request_size st).2 =
        (LeastConnectionsBalancer.assign_request now dur request_size st).2) :=
  ⟨fun _ _ _ => rfl, fun now dur request_size st => lc_facade_state_eq now dur request_size st⟩

/-- C4: Round-Robin assign picks the server at the current cyclic index,
advances the index modulo the server count regardless of outcome, and returns
that server's id iff the size is at most its static capacity; on the example
pool A:100, B:150, C:400 a size-50 request goes to A, and a following size-200
request is rejected at B's turn while the index still advances to C. -/
theorem claim_C4_round_robin (st : RoundRobinBalancer.State) (request_size : ℤ)
    (h : st.index < st.servers.length) :
    ((RoundRobinBalancer.assign_request request_size st).2.index =
        (st.index + 1) % st.servers.length ∧
      (request_size ≤ lookupD st.capacities (st.servers.get ⟨st.index, h⟩) →
        (RoundRobinBalancer.assign_request request_size st).1 =
          some (st.servers.get ⟨st.index, h⟩)) ∧
      (lookupD st.capacities (st.servers.get ⟨st.index, h⟩) < request_size →
        (RoundRobinBalancer.assign_request request_size st).1 = none)) ∧
    ((RoundRobinBalancer.assign_request 50 rrDemoState).1 = some sA ∧
      (RoundRobinBalancer.assign_request 50 rrDemoState).2.index = 1 ∧
      (RoundRobinBalancer.assign_request 200
        (RoundRobinBalancer.assign_request 50 rrDemoState).2).1 = none ∧
      (RoundRobinBalancer.assign_request 200
        (RoundRobinBalancer.assign_request 50 rrDemoState).2).2.index = 2) := by
  constructor
  · have hget : st.servers.getD st.index emptyName = st.servers.get ⟨st.index, h⟩ := by
      rw [List.getD_eq_getElem?_getD, List.getElem?_eq_getElem h]
      rfl
    refine ⟨?_, ?_, ?_⟩
    · simp only [RoundRobinBalancer.assign_request]
      split <;> rfl
    · intro hle
      simp only [RoundRobinBalancer.assign_request, hget]
      rw [if_neg (not_lt.mpr hle)]
    · intro hlt
      simp only [RoundRobinBalancer.assign_request, hget]
      rw [if_pos hlt]
  · refine ⟨?_, ?_, ?_, ?_⟩ <;> decide

/-- Witness for C4 at the example state of the specification. -/
theorem claim_C4_round_robin_witness :
    (RoundRobinBalancer.assign_request 50 rrDemoState).2.index = (0 + 1) % 3 ∧
    (RoundRobinBalancer.assign_request 50 rrDemoState).1 = some sA := by
  have h3 : rrDemoState.index < rrDemoState.servers.length := by decide
  exact ⟨(claim_C4_round_robin rrDemoState 50 h3).1.1,
    (claim_C4_round_robin rrDemoState 50 h3).2.1⟩

/-- C5: Least-Connections safety: a returned server had, at decision time
(after the reclaim pass), free capacity at least the request size, and the
request is rejected exactly when no reclaimed server satisfies this. -/
theorem claim_C5_lc_safety (st : LeastConnectionsBalancer.State) (now dur request_size : ℤ) :
    (∀ n : String,
      (LeastConnectionsBalancer.assign_request now dur request_size st).1 = some n →
      ∃ d : LeastConnectionsBalancer.Server,
        (n, d) ∈ (LeastConnectionsBalancer.process_completed_requests now st).servers ∧
        request_size ≤ d.capacity - d.current_load) ∧
    ((LeastConnectionsBalancer.assign_request now dur request_size st).1 = none ↔
      ∀ p ∈ (LeastConnectionsBalancer.process_completed_requests now st).servers,
        ¬(request_size ≤ p.2.capacity - p.2.current_load)) := by
  constructor
  · intro n hn
    rw [lc_assign_fst] at hn
    have hmem := argminByB_mem _ _ _ n hn
    rcases List.mem_map.mp hmem with ⟨p, hp, hp1⟩
    obtain ⟨hpm, hpc⟩ := List.mem_filter.mp hp
    refine ⟨p.2, ?_, of_decide_eq_true hpc⟩
    rw [← hp1]
    exact hpm
  · rw [lc_assign_fst, argminByB_eq_none, List.map_eq_nil_iff, List.filter_eq_nil_iff]
    constructor
    · intro h p hp
      simpa using h p hp
    · intro h p hp
      simpa using h p hp

/-- Witness for C5: one 100-capacity server accepts a size-50 request. -/
theorem claim_C5_lc_safety_witness :
    ∃ d : LeastConnectionsBalancer.Server,
      (sA, d) ∈ (LeastConnectionsBalancer.process_completed_requests 0
        (LeastConnectionsBalancer.init [(sA, 100)])).servers ∧
      (50 : ℤ) ≤ d.capacity - d.current_load :=
  (claim_C5_lc_safety (LeastConnectionsBalancer.init [(sA, 100)]) 0 1 50).1 sA (by decide)

/-- C1: refuted on the code.  LoadAwareBalancer.assign_request reads the
undefined name req_size in its feasibility comprehension (the parameter is
request_size), so on a reachable state with at least one server - here the
freshly constructed router over one 100-capacity server, with a positive
request of size 50 - the call raises NameError instead of returning a placed
or queued result. -/
theorem claim_C1_la_assign_raises :
    (LoadAwareBalancer.assign_request 0 constDur 1 50 1
      (LoadAwareBalancer.init [(sW1, 100)] 5)).1 =
      Except.error LoadAwareBalancer.PyErr.nameError := by
  rfl

/-- C6: refuted on the code.  On a state whose feasible set - healthy servers
with currentLoad + size at most capacity, as the sweep's correct comprehension
computes it - is non-empty, assign_request raises NameError in its own broken
feasibility comprehension before any selection happens, so the direct path
never chooses the ratio-minimizing server. -/
theorem claim_C6_la_selection_unreached :
    LoadAwareBalancer.available_servers
      (LoadAwareBalancer.init [(sA, 100), (sB, 400)] 5).servers 50 ≠ [] ∧
    (LoadAwareBalancer.assign_request 0 constDur 1 50 1
      (LoadAwareBalancer.init [(sA, 100), (sB, 400)] 5)).1 =
      Except.error LoadAwareBalancer.PyErr.nameError :=
  ⟨by decide, rfl⟩

/-- C2: in every reachable Least-Connections and Load-Aware state - hence
after every public operation - each server's current_load equals the sum of
the sizes of its active requests. -/
theorem claim_C2_load_eq_sum :
    (∀ st : LeastConnectionsBalancer.State, LeastConnectionsBalancer.Reachable st →
      ∀ p ∈ st.servers,
        p.2.current_load = LeastConnectionsBalancer.sizesSum p.2.active_requests) ∧
    (∀ st : LoadAwareBalancer.State, LoadAwareBalancer.Reachable st →
      ∀ p ∈ st.servers,
        p.2.current_load = LoadAwareBalancer.sizesSum p.2.active_requests) := by
  constructor
  · intro st h p hp
    exact (lc_reachable_inv h p hp).1
  · intro st h p hp
    obtain ⟨h1, h2, _⟩ := (la_reachable_inv h).1 p hp
    rw [h2, h1]
    rfl

/-- Witness for C2: a Least-Connections state after one placement, and a
fresh Load-Aware state. -/
theorem claim_C2_load_eq_sum_witness :
    lcDemoPair.2.current_load = LeastConnectionsBalancer.sizesSum lcDemoPair.2.active_requests ∧
    laDemoPair.2.current_load = LoadAwareBalancer.sizesSum laDemoPair.2.active_requests := by
  constructor
  · exact claim_C2_load_eq_sum.1 lcDemoState
      ⟨[(sA, 100)], Relation.ReflTransGen.tail Relation.ReflTransGen.refl
        (LeastConnectionsBalancer.Step.assign 0 1 50 (LeastConnectionsBalancer.init [(sA, 100)]))⟩
      lcDemoPair (by decide)
  · exact claim_C2_load_eq_sum.2 (LoadAwareBalancer.init [(sA, 100)] 5)
      ⟨[(sA, 100)], 5, Relation.ReflTransGen.refl⟩ laDemoPair (by decide)

/-- C10: in every reachable Least-Connections state - hence after every
assign call, including its reclaim pass - each server's connection counter
equals the number of its active requests. -/
theorem claim_C10_connections_eq_active (st : LeastConnectionsBalancer.State)
    (h : LeastConnectionsBalancer.Reachable st) :
    ∀ p ∈ st.servers, p.2.connections = (p.2.active_requests.length : ℤ) :=
  fun p hp => (lc_reachable_inv h p hp).2

/-- Witness for C10 after one placement on a one-server pool. -/
theorem claim_C10_connections_eq_active_witness :
    lcDemoPair.2.connections = (lcDemoPair.2.active_requests.length : ℤ) :=
  claim_C10_connections_eq_active lcDemoState
    ⟨[(sA, 100)], Relation.ReflTransGen.tail Relation.ReflTransGen.refl
      (LeastConnectionsBalancer.Step.assign 0 1 50 (LeastConnectionsBalancer.init [(sA, 100)]))⟩
    lcDemoPair (by decide)

/-- C3: in every reachable Load-Aware state, no request id is simultaneously
in the pending queue and in some server's active set, and no id is recorded in
the active sets of two distinct registry entries (no double-counting of a
request against two servers' loads). -/
theorem claim_C3_no_double (st : LoadAwareBalancer.State)
    (h : LoadAwareBalancer.Reachable st) :
    (∀ e ∈ st.request_queue, ∀ p ∈ st.servers, ∀ r ∈ p.2.active_requests, r.1 ≠ e.id) ∧
    st.servers.Pairwise (fun p q => ∀ r ∈ p.2.active_requests,
      ∀ r' ∈ q.2.active_requests, r.1 ≠ r'.1) := by
  obtain ⟨hs, _, _⟩ := la_reachable_inv h
  constructor
  · intro e _ p hp r hr
    rw [(hs p hp).1] at hr
    simp at hr
  · exact la_pairwise_of_empty st.servers (fun p hp => (hs p hp).1)

/-- Witness for C3 at a reachable state with a non-empty pending queue. -/
theorem claim_C3_no_double_witness :
    (∀ e ∈ laDemoQueued.request_queue, ∀ p ∈ laDemoQueued.servers,
      ∀ r ∈ p.2.active_requests, r.1 ≠ e.id) ∧
    laDemoQueued.servers.Pairwise (fun p q => ∀ r ∈ p.2.active_requests,
      ∀ r' ∈ q.2.active_requests, r.1 ≠ r'.1) :=
  claim_C3_no_double laDemoQueued
    ⟨[(sA, 100)], 5,
      Relation.ReflTransGen.tail
        (Relation.ReflTransGen.tail Relation.ReflTransGen.refl
          (LoadAwareBalancer.Step.health (fun _ => true)
            (LoadAwareBalancer.init [(sA, 100)] 5)))
        (LoadAwareBalancer.Step.assign 0 constDur 1 50 1
          (LoadAwareBalancer.health_check (fun _ => true)
            (LoadAwareBalancer.init [(sA, 100)] 5)))⟩

/-- C7: a pending entry whose age exceeds request_timeout at the time of a
sweep is removed by that sweep: it is absent from the resulting queue, its id
is not added to the completed audit set, and in every state reachable from the
swept state no server's active set carries its id (it is never placed). -/
theorem claim_C7_expired_dropped (st : LoadAwareBalancer.State)
    (h : LoadAwareBalancer.Reachable st) (now : ℤ) (durs : ℕ → ℤ)
    (e : LoadAwareBalancer.Entry) (_he : e ∈ st.request_queue)
    (hexp : now - e.ts > st.request_timeout) :
    e ∉ (LoadAwareBalancer.update_server_states now durs st).request_queue ∧
    e.id ∉ (LoadAwareBalancer.update_server_states now durs st).completed_requests ∧
    (∀ st' : LoadAwareBalancer.State,
      Relation.ReflTransGen LoadAwareBalancer.Step
        (LoadAwareBalancer.update_server_states now durs st) st' →
      ∀ p ∈ st'.servers, ∀ r ∈ p.2.active_requests, r.1 ≠ e.id) := by
  have hinv := la_reachable_inv h
  have hinv' := la_sweep_inv now durs st hinv
  refine ⟨?_, ?_, ?_⟩
  · intro hmem
    rw [la_update_def] at hmem
    rcases la_drain_mem now st.request_timeout st.request_counter durs _ _ _ _ _ e hmem with
      h1 | ⟨_, h3⟩
    · simp at h1
    · exact h3 hexp
  · obtain ⟨_, hc, _⟩ := hinv'
    rw [hc]
    simp
  · intro st' hchain p hp r hr
    obtain ⟨hs', _, _⟩ := la_reach_from_inv hinv' hchain
    rw [(hs' p hp).1] at hr
    simp at hr

/-- Witness for C7: the queued size-50 request of laDemoQueued, swept at time
10 with timeout 5. -/
theorem claim_C7_expired_dropped_witness :
    entryDemoQ ∉ (LoadAwareBalancer.update_server_states 10 constDur laDemoQueued).request_queue ∧
    entryDemoQ.id ∉
      (LoadAwareBalancer.update_server_states 10 constDur laDemoQueued).completed_requests := by
  have h := claim_C7_expired_dropped laDemoQueued
    ⟨[(sA, 100)], 5,
      Relation.ReflTransGen.tail
        (Relation.ReflTransGen.tail Relation.ReflTransGen.refl
          (LoadAwareBalancer.Step.health (fun _ => true)
            (LoadAwareBalancer.init [(sA, 100)] 5)))
        (LoadAwareBalancer.Step.assign 0 constDur 1 50 1
          (LoadAwareBalancer.health_check (fun _ => true)
            (LoadAwareBalancer.init [(sA, 100)] 5)))⟩
    10 constDur entryDemoQ (by decide) (by decide)
  exact ⟨h.1, h.2.1⟩

/-- C8: the pending queue dequeues in ascending (priority, arrivalTime)
order - lower priority value first, earlier arrival first within equal
priority, with ties inside equal (priority, arrivalTime) broken by request id,
i.e. arrival order (stable FIFO) - and the state-update sweep only re-inserts
entries of the original queue unchanged (same priority, arrival time, id and
size), so relative order against later arrivals is preserved. -/
theorem claim_C8_queue_order :
    (∀ (q : List LoadAwareBalancer.Entry) (e : LoadAwareBalancer.Entry)
      (rest : List LoadAwareBalancer.Entry),
      LoadAwareBalancer.extractMin q = some (e, rest) →
      ∀ x ∈ q, (e.priority < x.priority ∨ (e.priority = x.priority ∧ e.ts ≤ x.ts)) ∧
        (e.priority = x.priority → e.ts = x.ts → e.id ≤ x.id)) ∧
    (∀ (now : ℤ) (durs : ℕ → ℤ) (st : LoadAwareBalancer.State),
      ∀ x ∈ (LoadAwareBalancer.update_server_states now durs st).request_queue,
        x ∈ st.request_queue) := by
  constructor
  · intro q e rest hq x hx
    have hle := la_extractMin_min hq x hx
    rw [la_entryLeB_iff] at hle
    constructor
    · rcases hle with h1 | ⟨h1, h2⟩
      · exact Or.inl h1
      · refine Or.inr ⟨h1, ?_⟩
        rcases h2 with h2 | ⟨h2, _⟩
        · exact le_of_lt h2
        · exact le_of_eq h2
    · intro hp hts
      rcases hle with h1 | ⟨h1, h2⟩
      · exact absurd hp (ne_of_lt h1)
      · rcases h2 with h2 | ⟨h2, h3⟩
        · exact absurd hts (ne_of_lt h2)
        · rcases h3 with h3 | ⟨h3, _⟩
          · exact le_of_lt h3
          · exact le_of_eq h3
  · intro now durs st x hx
    rw [la_update_def] at hx
    rcases la_drain_mem now st.request_timeout st.request_counter durs _ _ _ _ _ x hx with
      h1 | ⟨h2, _⟩
    · simp at h1
    · exact h2

/-- Witness for C8: the strictly more urgent but later-arriving entry
dequeues first, and a swept queue re-inserts the original entry. -/
theorem claim_C8_queue_order_witness :
    ((entryDemoB.priority < entryDemoA.priority ∨
      (entryDemoB.priority = entryDemoA.priority ∧ entryDemoB.ts ≤ entryDemoA.ts)) ∧
      (entryDemoB.priority = entryDemoA.priority → entryDemoB.ts = entryDemoA.ts →
        entryDemoB.id ≤ entryDemoA.id)) ∧
    entryDemoQ ∈ laDemoQueued.request_queue := by
  constructor
  · exact claim_C8_queue_order.1 [entryDemoA, entryDemoB] entryDemoB [entryDemoA]
      (by decide) entryDemoA (by decide)
  · exact claim_C8_queue_order.2 1 constDur laDemoQueued entryDemoQ (by decide)
